import Mathlib

/-!
Verification of the glob-matching core of the xdg-mime library
(`src/glob.rs`).

Modelling conventions:
* Rust `String` / `&str` values are modelled as `List Char`.  The source
  scans pattern bytes, but every character the scan reacts to is a
  single-byte ASCII character and UTF-8 continuation bytes can never
  equal one of them, so the byte scan and the character scan agree.
* Rust `i32` is modelled as `Int`; `str::parse::<i32>` is modelled with
  its sign handling and overflow bounds made explicit.
* `Vec::sort` is a stable sort by the `Ord` instance (which compares
  only `weight`); a stable sort on a fixed key has a unique result, so
  it is modelled by a stable insertion sort on `weight`.
* `str::to_lowercase` and the `UniCase` equality are modelled
  per-character; the claims under scrutiny only exercise ASCII casing.
-/

namespace XdgMime

/-- The metacharacter test from the scan loop of `determine_type`:
`\`, `[`, `*` or `?`. -/
def isGlobMetaChar (ch : Char) : Bool :=
  ch = '\\' || ch = '[' || ch = '*' || ch = '?'

/-- Models the external `glob` crate's compiled `Pattern`.  The crate
object keeps the compiled token list; here the source text is kept and
compilation is fused into matching.  No claim depends on the fine
structure of full-glob matching: `Glob::compare` merely forwards to
`Pattern::matches` without consulting any entry flag. -/
structure Pattern where
  source : List Char
deriving DecidableEq

/-- Models `Pattern::new(..).unwrap()` from the `glob` crate as used by
`determine_type`. -/
def Pattern.new (s : List Char) : Pattern :=
  ⟨s⟩

/-- Membership of a character in a list of inclusive character ranges
(a bracket expression of the external glob engine). -/
def charInRanges (c : Char) : List (Char × Char) → Bool
  | [] => false
  | (lo, hi) :: rest => (lo ≤ c && c ≤ hi) || charInRanges c rest

/-- Parse the items of a bracket expression (after `[` and an optional
`!`) up to the closing `]`; returns the ranges and the rest of the
pattern, or `none` for an unterminated class. -/
def classItems : List Char → Option (List (Char × Char) × List Char)
  | [] => none
  | ']' :: rest => some ([], rest)
  | c :: '-' :: d :: rest =>
    if d = ']' then some ([(c, c), ('-', '-')], rest)
    else (classItems rest).map fun x => ((c, d) :: x.1, x.2)
  | c :: rest => (classItems rest).map fun x => ((c, c) :: x.1, x.2)

/-- Parse a bracket expression body, handling the leading negation
marker `!`. -/
def parseClass : List Char → Option (Bool × List (Char × Char) × List Char)
  | '!' :: rest => (classItems rest).map fun x => (true, x.1, x.2)
  | l => (classItems l).map fun x => (false, x.1, x.2)

/-- General glob evaluation of the external glob engine: `*` matches
any sequence, `?` any one character, `[..]` a character class with
ranges and `!` negation, anything else itself. -/
def globMatch : List Char → List Char → Bool
  | [], [] => true
  | [], _ :: _ => false
  | '*' :: ps, s =>
    globMatch ps s ||
      (match s with
       | [] => false
       | _ :: s' => globMatch ('*' :: ps) s')
  | '?' :: ps, _ :: s' => globMatch ps s'
  | '?' :: _, [] => false
  | '[' :: ps, c :: s' =>
    (match parseClass ps with
     | some (neg, ranges, rest) =>
       (if neg then !(charInRanges c ranges) else charInRanges c ranges) &&
         globMatch rest s'
     | none => false)
  | '[' :: _, [] => false
  | pc :: ps, c :: s' => (pc = c) && globMatch ps s'
  | _ :: _, [] => false
  termination_by p s => (s.length, p.length)

/-- Models `Pattern::matches`. -/
def Pattern.matches (p : Pattern) (file_name : List Char) : Bool :=
  globMatch p.source file_name

/-- `GlobType` from `src/glob.rs`. -/
inductive GlobType where
  | Literal (s : List Char)
  | Simple (s : List Char)
  | Full (p : Pattern)
deriving DecidableEq

/-- The scan loop inside `determine_type`, with the loop state (the
current index and the `maybe_simple` flag) explicit.  `glob` is the
whole pattern, used by the early `Full` return and by the final
`Simple`/`Literal` construction. -/
def determineTypeGo (glob : List Char) : Nat → Bool → List Char → GlobType
  | _, maybe_simple, [] =>
    if maybe_simple then GlobType.Simple (glob.drop 1) else GlobType.Literal glob
  | idx, maybe_simple, ch :: rest =>
    if idx = 0 && ch = '*' then determineTypeGo glob (idx + 1) true rest
    else if isGlobMetaChar ch then GlobType.Full (Pattern.new glob)
    else determineTypeGo glob (idx + 1) maybe_simple rest

/-- `determine_type` from `src/glob.rs`. -/
def determine_type (glob : List Char) : GlobType :=
  determineTypeGo glob 0 false glob

/-- `Glob` from `src/glob.rs` (fields in source order). -/
structure Glob where
  glob : GlobType
  weight : Int
  case_sensitive : Bool
  mime_type : List Char
deriving DecidableEq

/-- `Glob::simple`. -/
def Glob.simple (mime_type glob : List Char) : Glob :=
  ⟨determine_type glob, 50, false, mime_type⟩

/-- `Glob::with_weight`. -/
def Glob.with_weight (mime_type glob : List Char) (weight : Int) : Glob :=
  ⟨determine_type glob, weight, false, mime_type⟩

/-- `Glob::new`. -/
def Glob.new (mime_type glob : List Char) (weight : Int) (cs : Bool) : Glob :=
  ⟨determine_type glob, weight, cs, mime_type⟩

/-- Digit-string to number conversion used by `str::parse::<i32>`:
requires a non-empty all-digit string. -/
def parseNatDigits (ds : List Char) : Option Nat :=
  if ds = [] then none
  else if ds.all Char.isDigit then
    some (ds.foldl (fun n c => n * 10 + (c.toNat - 48)) 0)
  else none

/-- Models `str::parse::<i32>`: an optional single `+`/`-` sign, then
a non-empty run of decimal digits, within the `i32` bounds. -/
def parse_i32 (s : List Char) : Option Int :=
  match s with
  | '+' :: rest =>
    (parseNatDigits rest).bind fun n =>
      if n ≤ 2147483647 then some (n : Int) else none
  | '-' :: rest =>
    (parseNatDigits rest).bind fun n =>
      if n ≤ 2147483648 then some (-(n : Int)) else none
  | _ =>
    (parseNatDigits s).bind fun n =>
      if n ≤ 2147483647 then some (n : Int) else none

/-- Models Rust `str::split(':')`: the list of `:`-delimited chunks
(always non-empty; the empty string yields one empty chunk). -/
def splitOnColon : List Char → List (List Char)
  | [] => [[]]
  | c :: rest =>
    if c = ':' then [] :: splitOnColon rest
    else
      match splitOnColon rest with
      | [] => [[c]]
      | chunk :: chunks => (c :: chunk) :: chunks

/-- Models Rust `s.contains(':')`. -/
def containsColon (s : List Char) : Bool :=
  s.any fun ch => ch = ':'

/-- `Glob::from_v1_string`.  The iterator `chunks` and its successive
`next()` calls are modelled by matching on the chunk list; the final
`chunks.count() != 0` leftover check is the length test on the rest. -/
def Glob.from_v1_string (s : List Char) : Option Glob :=
  if s.isEmpty || !containsColon s then none
  else
    match splitOnColon s with
    | [] => none
    | [_] => none
    | mime_type :: glob :: rest =>
      if mime_type.isEmpty || glob.isEmpty then none
      else if rest.length ≠ 0 then none
      else some ⟨determine_type glob, 50, false, mime_type⟩

/-- `Glob::from_v2_string`, chunk by chunk in source order: weight
(with `unwrap_or(-1)` and the negativity check), type, pattern, the
emptiness checks, the optional `cs` chunk, and the leftover check. -/
def Glob.from_v2_string (s : List Char) : Option Glob :=
  if s.isEmpty || !containsColon s then none
  else
    match splitOnColon s with
    | [] => none
    | w :: rest1 =>
      let weight := (parse_i32 w).getD (-1)
      if weight < 0 then none
      else
        match rest1 with
        | [] => none
        | mime_type :: rest2 =>
          match rest2 with
          | [] => none
          | glob :: rest3 =>
            if mime_type.isEmpty || glob.isEmpty then none
            else
              match rest3 with
              | [] => some ⟨determine_type glob, weight, false, mime_type⟩
              | c :: rest4 =>
                if c = [ 'c', 's'] then
                  if rest4.length ≠ 0 then none
                  else some ⟨determine_type glob, weight, true, mime_type⟩
                else none

/-- Models Rust `str::to_lowercase` (per-character; adequate for the
ASCII casing the claims exercise). -/
def toLowercase (s : List Char) : List Char :=
  s.map Char.toLower

/-- Models the `UniCase` wrapper equality used by the `Literal` branch
of `Glob::compare`: equality up to case folding. -/
def unicaseEq (a b : List Char) : Bool :=
  toLowercase a == toLowercase b

/-- `Glob::compare`. -/
def Glob.compare (g : Glob) (file_name : List Char) : Bool :=
  match g.glob with
  | GlobType.Literal s => unicaseEq s file_name
  | GlobType.Simple s =>
    if s.isSuffixOf file_name then true
    else if !g.case_sensitive && s.isSuffixOf (toLowercase file_name) then true
    else false
  | GlobType.Full p => p.matches file_name

/-- `GlobMap` from `src/glob.rs`. -/
structure GlobMap where
  globs : List Glob

/-- `GlobMap::new`. -/
def GlobMap.new : GlobMap :=
  ⟨[]⟩

/-- `GlobMap::add_glob`. -/
def GlobMap.add_glob (m : GlobMap) (g : Glob) : GlobMap :=
  ⟨m.globs ++ [g]⟩

/-- `GlobMap::add_globs`. -/
def GlobMap.add_globs (m : GlobMap) (gs : List Glob) : GlobMap :=
  ⟨m.globs ++ gs⟩

/-- Stable insertion of a glob into a weight-sorted list: the new
element goes before every element of strictly larger weight and after
every element of smaller-or-equal weight already present. -/
def insertByWeight (x : Glob) : List Glob → List Glob
  | [] => [x]
  | h :: t => if h.weight < x.weight then h :: insertByWeight x t else x :: h :: t

/-- Models `Vec::sort` on `Vec<Glob>`: stable, ascending by the `Ord`
instance, which compares only `weight`.  A stable sort on a fixed key
is unique, so stable insertion sort is extensionally the source's
merge-based sort. -/
def sortByWeight : List Glob → List Glob
  | [] => []
  | h :: t => insertByWeight h (sortByWeight t)

/-- `GlobMap::lookup_mime_type_for_file_name`: the collection loop is
a filter in iteration order, then the emptiness check, `sort`, and the
projection to `mime_type`. -/
def GlobMap.lookup_mime_type_for_file_name
    (m : GlobMap) (file_name : List Char) : Option (List (List Char)) :=
  let matching_globs := m.globs.filter fun g => g.compare file_name
  if matching_globs.length = 0 then none
  else some ((sortByWeight matching_globs).map Glob.mime_type)

/-! ### Spec-side definitions

Definitions written from the specification's words, to be compared
with the source embeddings above. -/

/-- Modelled from the spec's classification rule: scan left to right,
a leading `*` tentatively marks a suffix candidate; any occurrence of
`\`, `[`, `?`, or a `*` at a non-leading position makes the pattern
Full; otherwise a seen leading `*` gives Suffix of the remainder, and
else Literal of the whole string. -/
def classifyModel (g : List Char) : GlobType :=
  if g.enum.any (fun p =>
      p.2 = '\\' || p.2 = '[' || p.2 = '?' || (p.2 = '*' && p.1 != 0)) then
    GlobType.Full (Pattern.new g)
  else if g.head? = some '*' then GlobType.Simple (g.drop 1)
  else GlobType.Literal g

/-- Modelled from the spec: case-insensitive string equality
(case folding, per character). -/
def caseInsensitiveEq (a b : List Char) : Bool :=
  toLowercase a == toLowercase b

/-- The underlying pattern text of a classified shape: the source text
the entry was built from (`Simple` stores the text after the leading
`*`). -/
def patternSource : GlobType → List Char
  | GlobType.Literal s => s
  | GlobType.Simple s => '*' :: s
  | GlobType.Full p => p.source

/-! ### Concrete fixtures used by counterexamples and witnesses -/

/-- An entry of weight 80 matching `*.x`. -/
def exGlobHigh : Glob := Glob.new "high".toList "*.x".toList 80 false

/-- An entry of weight 50 matching `*.x`. -/
def exGlobLow : Glob := Glob.new "low".toList "*.x".toList 50 false

/-- A registry holding the weight-80 entry before the weight-50 one. -/
def exMapWeights : GlobMap := ⟨[exGlobHigh, exGlobLow]⟩

/-- A well-formed v2 line with the `cs` marker. -/
def exV2Line : List Char := "50:text/x-c++src:*.C:cs".toList

/-- The entry the v2 parser produces for `exV2Line`. -/
def exV2Glob : Glob :=
  ⟨determine_type "*.C".toList, 50, true, "text/x-c++src".toList⟩

/-- A well-formed v1 line. -/
def exV1Line : List Char := "text/rust:*.rs".toList

/-- The entry the v1 parser produces for `exV1Line`. -/
def exV1Glob : Glob :=
  ⟨determine_type "*.rs".toList, 50, false, "text/rust".toList⟩

/-! ### Helper lemmas -/

theorem splitOnColon_ne_nil (s : List Char) : splitOnColon s ≠ [] := by
  induction s with
  | nil => simp [splitOnColon]
  | cons c rest ih =>
    by_cases hc : c = ':'
    · simp [splitOnColon, hc]
    · simp only [splitOnColon, if_neg hc]
      cases h : splitOnColon rest <;> simp

theorem two_le_length_splitOnColon_iff (s : List Char) :
    2 ≤ (splitOnColon s).length ↔ ':' ∈ s := by
  induction s with
  | nil => simp [splitOnColon]
  | cons c rest ih =>
    by_cases hc : c = ':'
    · subst hc
      have h1 : 1 ≤ (splitOnColon rest).length :=
        List.length_pos.mpr (splitOnColon_ne_nil rest)
      constructor
      · intro _
        exact List.mem_cons_self _ _
      · intro _
        show 2 ≤ (splitOnColon (':' :: rest)).length
        rw [splitOnColon, if_pos rfl]
        rw [List.length_cons]
        omega
    · simp only [splitOnColon, if_neg hc]
      cases h : splitOnColon rest with
      | nil => exact absurd h (splitOnColon_ne_nil rest)
      | cons a as =>
        rw [h] at ih
        simp only [List.length_cons] at ih ⊢
        rw [List.mem_cons]
        constructor
        · intro hlen; exact Or.inr (ih.mp hlen)
        · intro hmem
          rcases hmem with heq | hmem
          · exact absurd heq.symm hc
          · exact ih.mpr hmem

theorem containsColon_iff (s : List Char) :
    containsColon s = true ↔ ':' ∈ s := by
  simp only [containsColon, List.any_eq_true, decide_eq_true_eq]
  constructor
  · rintro ⟨x, hx, rfl⟩; exact hx
  · intro h; exact ⟨':', h, rfl⟩

theorem toLower_not_upper (c : Char) : (Char.toLower c).isUpper = false := by
  have hdef : Char.toLower c =
      if c.toNat ≥ 65 ∧ c.toNat ≤ 90 then Char.ofNat (c.toNat + 32) else c := rfl
  rw [hdef]
  have hcv : c.toNat = c.val.toNat := rfl
  by_cases h : c.toNat ≥ 65 ∧ c.toNat ≤ 90
  · rw [if_pos h]
    have hv : (c.toNat + 32).isValidChar := Or.inl (by omega)
    have hval : (Char.ofNat (c.toNat + 32)).val.toNat = c.toNat + 32 := by
      simp only [Char.ofNat, hv, dif_pos]
      rfl
    simp only [Char.isUpper]
    rw [Bool.and_eq_false_iff]
    right
    rw [decide_eq_false_iff_not]
    intro hle
    have h2 : (Char.ofNat (c.toNat + 32)).val.toNat ≤ (90 : UInt32).toNat := hle
    have h90 : (90 : UInt32).toNat = 90 := rfl
    omega
  · rw [if_neg h]
    simp only [Char.isUpper]
    rw [Bool.and_eq_false_iff]
    by_cases h1 : 65 ≤ c.toNat
    · right
      rw [decide_eq_false_iff_not]
      intro hle
      have h2 : c.val.toNat ≤ (90 : UInt32).toNat := hle
      have h90 : (90 : UInt32).toNat = 90 := rfl
      exact h ⟨h1, by omega⟩
    · left
      rw [decide_eq_false_iff_not]
      intro hge
      have h2 : (65 : UInt32).toNat ≤ c.val.toNat := hge
      have h65 : (65 : UInt32).toNat = 65 := rfl
      exact h1 (by omega)

theorem mem_toLowercase_not_upper {c : Char} {s : List Char}
    (h : c ∈ toLowercase s) : c.isUpper = false := by
  rw [toLowercase, List.mem_map] at h
  obtain ⟨d, _, rfl⟩ := h
  exact toLower_not_upper d

/-- Characterization of the scan loop once past index 0: the result is
Full exactly if a metacharacter occurs in the remaining characters,
and otherwise determined by the accumulated `maybe_simple` flag. -/
theorem determineTypeGo_pos (glob : List Char) (l : List Char) :
    ∀ (idx : Nat) (ms : Bool), idx ≠ 0 →
      determineTypeGo glob idx ms l =
        if l.any isGlobMetaChar then GlobType.Full (Pattern.new glob)
        else if ms then GlobType.Simple (glob.drop 1)
        else GlobType.Literal glob := by
  induction l with
  | nil => intro idx ms h; simp [determineTypeGo]
  | cons ch rest ih =>
    intro idx ms h
    have h0 : (idx = 0 && ch = '*') = false := by
      simp only [Bool.and_eq_false_iff, decide_eq_false_iff_not]
      exact Or.inl h
    rw [determineTypeGo, h0]
    simp only [Bool.false_eq_true, if_false]
    by_cases hm : isGlobMetaChar ch = true
    · simp [hm, List.any_cons]
    · have hm' : isGlobMetaChar ch = false := by
        revert hm; cases isGlobMetaChar ch <;> simp
      rw [if_neg (by simp [hm'])]
      rw [ih (idx + 1) ms (Nat.succ_ne_zero idx)]
      simp [List.any_cons, hm']

/-- Re-deriving the source text from the classified shape: the
classifier only repackages its input. -/
theorem patternSource_determine_type (g : List Char) :
    patternSource (determine_type g) = g := by
  cases g with
  | nil => rfl
  | cons c rest =>
    rw [determine_type, determineTypeGo]
    by_cases hc : c = '*'
    · subst hc
      rw [if_pos (by simp)]
      rw [determineTypeGo_pos _ _ _ _ (Nat.succ_ne_zero 0)]
      by_cases hm : rest.any isGlobMetaChar = true
      · rw [if_pos hm]; rfl
      · rw [if_neg hm]
        simp [patternSource]
    · rw [if_neg (by simp [hc])]
      by_cases hm : isGlobMetaChar c = true
      · rw [if_pos hm]; rfl
      · rw [if_neg hm]
        rw [determineTypeGo_pos _ _ _ _ (Nat.succ_ne_zero 0)]
        by_cases hm2 : rest.any isGlobMetaChar = true
        · rw [if_pos hm2]; rfl
        · rw [if_neg hm2]
          simp [patternSource]

theorem insertByWeight_perm (x : Glob) (l : List Glob) :
    (insertByWeight x l).Perm (x :: l) := by
  induction l with
  | nil => exact List.Perm.refl _
  | cons h t ih =>
    rw [insertByWeight]
    by_cases hw : h.weight < x.weight
    · rw [if_pos hw]
      exact (ih.cons h).trans (List.Perm.swap x h t)
    · rw [if_neg hw]

theorem sortByWeight_perm (l : List Glob) : (sortByWeight l).Perm l := by
  induction l with
  | nil => exact List.Perm.refl _
  | cons h t ih =>
    rw [sortByWeight]
    exact (insertByWeight_perm h (sortByWeight t)).trans (ih.cons h)

theorem sorted_insertByWeight (x : Glob) (l : List Glob)
    (hl : l.Pairwise fun a b => a.weight ≤ b.weight) :
    (insertByWeight x l).Pairwise fun a b => a.weight ≤ b.weight := by
  induction l with
  | nil => simp [insertByWeight]
  | cons h t ih =>
    rw [List.pairwise_cons] at hl
    obtain ⟨hh, ht⟩ := hl
    rw [insertByWeight]
    by_cases hw : h.weight < x.weight
    · rw [if_pos hw]
      rw [List.pairwise_cons]
      refine ⟨?_, ih ht⟩
      intro b hb
      have hmem := (insertByWeight_perm x t).mem_iff.mp hb
      rcases List.mem_cons.mp hmem with rfl | hbt
      · exact le_of_lt hw
      · exact hh b hbt
    · rw [if_neg hw]
      rw [List.pairwise_cons]
      refine ⟨?_, List.pairwise_cons.mpr ⟨hh, ht⟩⟩
      intro b hb
      rcases List.mem_cons.mp hb with rfl | hbt
      · exact le_of_not_lt hw
      · exact le_trans (le_of_not_lt hw) (hh b hbt)

theorem sorted_sortByWeight (l : List Glob) :
    (sortByWeight l).Pairwise fun a b => a.weight ≤ b.weight := by
  induction l with
  | nil => simp [sortByWeight]
  | cons h t ih => exact sorted_insertByWeight h (sortByWeight t) ih

/-- Past position 0, the positional metacharacter condition of the
classification rule collapses to plain membership of a metacharacter. -/
theorem enumFrom_any_meta (l : List Char) :
    ∀ k : Nat, k ≠ 0 →
      ((List.enumFrom k l).any fun p =>
          p.2 = '\\' || p.2 = '[' || p.2 = '?' || (p.2 = '*' && p.1 != 0))
        = l.any isGlobMetaChar := by
  induction l with
  | nil => intro k hk; rfl
  | cons c rest ih =>
    intro k hk
    rw [List.enumFrom, List.any_cons, List.any_cons, ih (k + 1) (Nat.succ_ne_zero k)]
    congr 1
    simp only [isGlobMetaChar]
    have hkne : (k != 0) = true := by
      rw [bne_iff_ne]; exact hk
    rw [hkne]
    by_cases h1 : c = '\\' <;> by_cases h2 : c = '[' <;>
      by_cases h3 : c = '?' <;> by_cases h4 : c = '*' <;>
      simp [h1, h2, h3, h4]

/-- Facts available when the chunk list has at least two chunks: the
line contains a colon, hence is non-empty, and the two entry guards of
the parsers pass. -/
theorem chunks_ge_two {s a b : List Char} {r : List (List Char)}
    (hsp : splitOnColon s = a :: b :: r) :
    ':' ∈ s ∧ s ≠ [] ∧ s.isEmpty = false ∧ containsColon s = true := by
  have hcolon : ':' ∈ s := by
    apply (two_le_length_splitOnColon_iff s).mp
    rw [hsp]
    simp
  have hne : s ≠ [] := by
    rintro rfl
    exact absurd hcolon (List.not_mem_nil ':')
  refine ⟨hcolon, hne, ?_, (containsColon_iff s).mpr hcolon⟩
  cases s with
  | nil => exact absurd rfl hne
  | cons x xs => rfl

/-- A single chunk means the separator does not occur. -/
theorem not_mem_colon_of_single {s a : List Char}
    (hsp : splitOnColon s = [a]) : ':' ∉ s := by
  intro hmem
  have h2 := (two_le_length_splitOnColon_iff s).mpr hmem
  rw [hsp] at h2
  simp at h2

/-- A single chunk refutes the `contains(':')` guard. -/
theorem containsColon_false_of_single {s a : List Char}
    (hsp : splitOnColon s = [a]) : containsColon s = false := by
  cases h : containsColon s
  · rfl
  · exact absurd ((containsColon_iff s).mp h) (not_mem_colon_of_single hsp)

/-- Closed-form characterization of `Glob::from_v1_string` in terms of
the chunk list. -/
theorem from_v1_string_eq (s : List Char) :
    Glob.from_v1_string s =
      (match splitOnColon s with
       | [t, p] =>
         if t = [] ∨ p = [] then none
         else some ⟨determine_type p, 50, false, t⟩
       | _ => none) := by
  rcases hsp : splitOnColon s with _ | ⟨t, _ | ⟨p, _ | ⟨r, rs⟩⟩⟩
  · exact absurd hsp (splitOnColon_ne_nil s)
  · rw [Glob.from_v1_string, containsColon_false_of_single hsp]
    simp
  · obtain ⟨-, -, hie, hcc⟩ := chunks_ge_two hsp
    rw [Glob.from_v1_string, hie, hcc, hsp]
    simp only [Bool.not_true, Bool.or_self, Bool.false_eq_true, if_false]
    by_cases ht : t = []
    · simp [ht]
    · by_cases hp : p = []
      · simp [ht, hp]
      · simp [ht, hp]
  · obtain ⟨-, -, hie, hcc⟩ := chunks_ge_two hsp
    rw [Glob.from_v1_string, hie, hcc, hsp]
    simp only [Bool.not_true, Bool.or_self, Bool.false_eq_true, if_false]
    by_cases ht : t = [] <;> by_cases hp : p = [] <;> simp [ht, hp]

/-- Closed-form characterization of `Glob::from_v2_string` in terms of
the chunk list. -/
theorem from_v2_string_eq (s : List Char) :
    Glob.from_v2_string s =
      (match splitOnColon s with
       | [w, t, p] =>
         if (parse_i32 w).getD (-1) < 0 ∨ t = [] ∨ p = [] then none
         else some ⟨determine_type p, (parse_i32 w).getD (-1), false, t⟩
       | [w, t, p, c] =>
         if (parse_i32 w).getD (-1) < 0 ∨ t = [] ∨ p = [] ∨ c ≠ [ 'c', 's'] then none
         else some ⟨determine_type p, (parse_i32 w).getD (-1), true, t⟩
       | _ => none) := by
  rcases hsp : splitOnColon s with _ | ⟨w, _ | ⟨t, _ | ⟨p, _ | ⟨c, _ | ⟨d, rs⟩⟩⟩⟩⟩
  · exact absurd hsp (splitOnColon_ne_nil s)
  · rw [Glob.from_v2_string, containsColon_false_of_single hsp]
    simp
  · obtain ⟨-, -, hie, hcc⟩ := chunks_ge_two hsp
    rw [Glob.from_v2_string, hie, hcc, hsp]
    simp only [Bool.not_true, Bool.or_self, Bool.false_eq_true, if_false]
    by_cases hw : (parse_i32 w).getD (-1) < 0 <;> simp [hw]
  · obtain ⟨-, -, hie, hcc⟩ := chunks_ge_two hsp
    rw [Glob.from_v2_string, hie, hcc, hsp]
    simp only [Bool.not_true, Bool.or_self, Bool.false_eq_true, if_false]
    by_cases hw : (parse_i32 w).getD (-1) < 0
    · simp [hw]
    · by_cases ht : t = [] <;> by_cases hp : p = [] <;> simp [hw, ht, hp]
  · obtain ⟨-, -, hie, hcc⟩ := chunks_ge_two hsp
    rw [Glob.from_v2_string, hie, hcc, hsp]
    simp only [Bool.not_true, Bool.or_self, Bool.false_eq_true, if_false]
    by_cases hw : (parse_i32 w).getD (-1) < 0
    · simp [hw]
    · by_cases ht : t = [] <;> by_cases hp : p = [] <;>
        by_cases hcs : c = [ 'c', 's'] <;> simp [hw, ht, hp, hcs]
  · obtain ⟨-, -, hie, hcc⟩ := chunks_ge_two hsp
    rw [Glob.from_v2_string, hie, hcc, hsp]
    simp only [Bool.not_true, Bool.or_self, Bool.false_eq_true, if_false]
    by_cases hw : (parse_i32 w).getD (-1) < 0
    · simp [hw]
    · by_cases ht : t = [] <;> by_cases hp : p = [] <;>
        by_cases hcs : c = [ 'c', 's'] <;> simp [hw, ht, hp, hcs]

theorem from_v1_one {s a : List Char} (hsp : splitOnColon s = [a]) :
    Glob.from_v1_string s = none := by
  rw [from_v1_string_eq, hsp]

theorem from_v1_two {s t p : List Char} (hsp : splitOnColon s = [t, p]) :
    Glob.from_v1_string s =
      if t = [] ∨ p = [] then none
      else some ⟨determine_type p, 50, false, t⟩ := by
  rw [from_v1_string_eq, hsp]

theorem from_v1_many {s t p r : List Char} {rs : List (List Char)}
    (hsp : splitOnColon s = t :: p :: r :: rs) :
    Glob.from_v1_string s = none := by
  rw [from_v1_string_eq, hsp]

theorem from_v2_one {s a : List Char} (hsp : splitOnColon s = [a]) :
    Glob.from_v2_string s = none := by
  rw [from_v2_string_eq, hsp]

theorem from_v2_two {s a b : List Char} (hsp : splitOnColon s = [a, b]) :
    Glob.from_v2_string s = none := by
  rw [from_v2_string_eq, hsp]

theorem from_v2_three {s w t p : List Char} (hsp : splitOnColon s = [w, t, p]) :
    Glob.from_v2_string s =
      if (parse_i32 w).getD (-1) < 0 ∨ t = [] ∨ p = [] then none
      else some ⟨determine_type p, (parse_i32 w).getD (-1), false, t⟩ := by
  rw [from_v2_string_eq, hsp]

theorem from_v2_four {s w t p c : List Char}
    (hsp : splitOnColon s = [w, t, p, c]) :
    Glob.from_v2_string s =
      if (parse_i32 w).getD (-1) < 0 ∨ t = [] ∨ p = [] ∨ c ≠ [ 'c', 's'] then none
      else some ⟨determine_type p, (parse_i32 w).getD (-1), true, t⟩ := by
  rw [from_v2_string_eq, hsp]

theorem from_v2_many {s w t p c d : List Char} {rs : List (List Char)}
    (hsp : splitOnColon s = w :: t :: p :: c :: d :: rs) :
    Glob.from_v2_string s = none := by
  rw [from_v2_string_eq, hsp]

/-- The negativity test on the defaulted parse result is precisely the
failure of a non-negative parse. -/
theorem getD_parse_neg_iff (w : List Char) :
    (parse_i32 w).getD (-1) < 0 ↔ ¬ ∃ n : Int, parse_i32 w = some n ∧ 0 ≤ n := by
  cases h : parse_i32 w with
  | none => simp [h]
  | some n =>
    simp [h]

/-! ### Claim theorems -/

/-- C2: `determine_type` implements exactly the claimed rule: scanning
left to right, a leading `*` tentatively marks Suffix; any occurrence
of `\`, `[`, `?`, or a non-leading `*` makes the result Full; if the
scan completes without triggering Full, the result is Simple (Suffix)
of the remainder after the first character when a leading `*` was
seen, and otherwise Literal of the whole string. -/
theorem determine_type_follows_classification_rule (g : List Char) :
    determine_type g = classifyModel g := by
  cases g with
  | nil => rfl
  | cons c rest =>
    have henum : (c :: rest).enum = (0, c) :: List.enumFrom 1 rest := rfl
    rw [determine_type, determineTypeGo, classifyModel, henum, List.any_cons,
        enumFrom_any_meta rest 1 (Nat.succ_ne_zero 0)]
    by_cases hc : c = '*'
    · subst hc
      rw [if_pos (by simp), determineTypeGo_pos _ _ _ _ (Nat.succ_ne_zero 0)]
      by_cases hm : rest.any isGlobMetaChar = true
      · simp [hm]
      · simp [hm]
    · rw [if_neg (by simp [hc])]
      by_cases hmc : isGlobMetaChar c = true
      · rw [if_pos hmc]
        rw [isGlobMetaChar] at hmc
        simp only [Bool.or_eq_true, decide_eq_true_eq] at hmc
        rcases hmc with ((h | h) | h) | h
        · simp [h]
        · simp [h]
        · exact absurd h hc
        · simp [h]
      · rw [if_neg hmc, determineTypeGo_pos _ _ _ _ (Nat.succ_ne_zero 0)]
        rw [isGlobMetaChar] at hmc
        simp only [Bool.or_eq_true, decide_eq_true_eq, not_or] at hmc
        obtain ⟨⟨⟨h1, h2⟩, h3⟩, h4⟩ := hmc
        by_cases hm : rest.any isGlobMetaChar = true
        · simp [hm]
        · simp [hm, h1, h2, h3, h4, hc]

/-- C4: `from_v1_string` returns none exactly when the line is empty,
contains no `:`, has an empty type field, has an empty pattern field,
or has more than two `:`-delimited fields; on success the entry has
weight 50 and is case-insensitive. -/
theorem from_v1_string_none_iff (s : List Char) :
    (Glob.from_v1_string s = none ↔
      s = [] ∨ ':' ∉ s ∨ (splitOnColon s)[0]? = some [] ∨
        (splitOnColon s)[1]? = some [] ∨ 2 < (splitOnColon s).length)
    ∧ ∀ g, Glob.from_v1_string s = some g →
        g.weight = 50 ∧ g.case_sensitive = false := by
  rcases hsp : splitOnColon s with _ | ⟨t, _ | ⟨p, _ | ⟨r, rs⟩⟩⟩
  · exact absurd hsp (splitOnColon_ne_nil s)
  · have hnc := not_mem_colon_of_single hsp
    rw [from_v1_one hsp]
    simp [hnc]
  · obtain ⟨hcolon, hne, -, -⟩ := chunks_ge_two hsp
    rw [from_v1_two hsp]
    by_cases ht : t = []
    · simp [ht]
    · by_cases hp : p = []
      · simp [ht, hp]
      · constructor
        · simp [ht, hp, hne, hcolon]
        · intro g hg
          simp [ht, hp] at hg
          rw [← hg]
          exact ⟨rfl, rfl⟩
  · rw [from_v1_many hsp]
    constructor
    · constructor
      · intro _
        right; right; right; right
        simp
      · intro _
        rfl
    · intro g hg
      cases hg

/-- C4 witness: the parser accepts `text/rust:*.rs` and the produced
entry has weight 50 and is case-insensitive. -/
theorem from_v1_string_none_iff_witness :
    exV1Glob.weight = 50 ∧ exV1Glob.case_sensitive = false :=
  (from_v1_string_none_iff exV1Line).2 exV1Glob (by decide)

/-- C3: `from_v2_string` returns an entry exactly when the line splits
into `weight:type:pattern` or `weight:type:pattern:cs` with the weight
parsing as a non-negative integer and type and pattern non-empty; a
`cs` fourth field (chunk count four) yields a case-sensitive entry and
an absent fourth field (chunk count three) a case-insensitive one. -/
theorem from_v2_string_success_iff (s : List Char) :
    ((∃ g, Glob.from_v2_string s = some g) ↔
      (∃ w t p, (splitOnColon s = [w, t, p] ∨
          splitOnColon s = [w, t, p, [ 'c', 's']]) ∧
        (∃ n : Int, parse_i32 w = some n ∧ 0 ≤ n) ∧ t ≠ [] ∧ p ≠ []))
    ∧ ∀ g, Glob.from_v2_string s = some g →
        (((splitOnColon s).length = 4 → g.case_sensitive = true) ∧
         ((splitOnColon s).length = 3 → g.case_sensitive = false)) := by
  rcases hsp : splitOnColon s with _ | ⟨w, _ | ⟨t, _ | ⟨p, _ | ⟨c, _ | ⟨d, rs⟩⟩⟩⟩⟩
  · exact absurd hsp (splitOnColon_ne_nil s)
  · rw [from_v2_one hsp]
    simp
  · rw [from_v2_two hsp]
    simp
  · rw [from_v2_three hsp]
    constructor
    · constructor
      · rintro ⟨g, hg⟩
        by_cases hcond : (parse_i32 w).getD (-1) < 0 ∨ t = [] ∨ p = []
        · rw [if_pos hcond] at hg
          cases hg
        · obtain ⟨hw, hrest⟩ := not_or.mp hcond
          obtain ⟨ht, hp⟩ := not_or.mp hrest
          rw [getD_parse_neg_iff, not_not] at hw
          exact ⟨w, t, p, Or.inl rfl, hw, ht, hp⟩
      · rintro ⟨w1, t1, p1, heq | heq, hn, ht1, hp1⟩
        · simp only [List.cons.injEq, and_true] at heq
          obtain ⟨rfl, rfl, rfl⟩ := heq
          have hw : ¬ (parse_i32 w).getD (-1) < 0 :=
            fun hlt => absurd hn ((getD_parse_neg_iff w).mp hlt)
          refine ⟨⟨determine_type p, (parse_i32 w).getD (-1), false, t⟩, ?_⟩
          rw [if_neg]
          rintro (h | h | h)
          · exact hw h
          · exact ht1 h
          · exact hp1 h
        · simp at heq
    · intro g hg
      constructor
      · intro h4
        simp at h4
      · intro _
        by_cases hcond : (parse_i32 w).getD (-1) < 0 ∨ t = [] ∨ p = []
        · rw [if_pos hcond] at hg
          cases hg
        · rw [if_neg hcond] at hg
          obtain rfl := (Option.some_injective _ hg).symm
          rfl
  · rw [from_v2_four hsp]
    constructor
    · constructor
      · rintro ⟨g, hg⟩
        by_cases hcond : (parse_i32 w).getD (-1) < 0 ∨ t = [] ∨ p = [] ∨
            c ≠ [ 'c', 's']
        · rw [if_pos hcond] at hg
          cases hg
        · obtain ⟨hw, hrest⟩ := not_or.mp hcond
          obtain ⟨ht, hrest2⟩ := not_or.mp hrest
          obtain ⟨hp, hcs⟩ := not_or.mp hrest2
          rw [not_not] at hcs
          rw [getD_parse_neg_iff, not_not] at hw
          exact ⟨w, t, p, Or.inr (by rw [hcs]), hw, ht, hp⟩
      · rintro ⟨w1, t1, p1, heq | heq, hn, ht1, hp1⟩
        · simp at heq
        · simp only [List.cons.injEq, and_true] at heq
          obtain ⟨rfl, rfl, rfl, rfl⟩ := heq
          have hw : ¬ (parse_i32 w).getD (-1) < 0 :=
            fun hlt => absurd hn ((getD_parse_neg_iff w).mp hlt)
          refine ⟨⟨determine_type p, (parse_i32 w).getD (-1), true, t⟩, ?_⟩
          rw [if_neg]
          rintro (h | h | h | h)
          · exact hw h
          · exact ht1 h
          · exact hp1 h
          · exact h rfl
    · intro g hg
      constructor
      · intro _
        by_cases hcond : (parse_i32 w).getD (-1) < 0 ∨ t = [] ∨ p = [] ∨
            c ≠ [ 'c', 's']
        · rw [if_pos hcond] at hg
          cases hg
        · rw [if_neg hcond] at hg
          obtain rfl := (Option.some_injective _ hg).symm
          rfl
      · intro h3
        simp at h3
  · rw [from_v2_many hsp]
    constructor
    · simp
    · intro g hg
      cases hg

/-- C3 witness: the line `50:text/x-c++src:*.C:cs` parses and its
four-chunk form yields a case-sensitive entry. -/
theorem from_v2_string_success_iff_witness : exV2Glob.case_sensitive = true :=
  ((from_v2_string_success_iff exV2Line).2 exV2Glob (by decide)).1 (by decide)

/-- C5 counterexample: the claim also asserts that the entry built
from `*.C` with `case_sensitive = false` matches `foo.c`; it does not,
because only the file name is lowercased and `foo.c` does not end in
the stored suffix `.C`. -/
theorem suffix_case_insensitive_counterexample :
    ¬ ((Glob.new "text/x-c++src".toList "*.C".toList 50 true).compare
          "foo.C".toList = true
      ∧ (Glob.new "text/x-c++src".toList "*.C".toList 50 true).compare
          "foo.c".toList = false
      ∧ (Glob.new "text/x-c++src".toList "*.C".toList 50 false).compare
          "foo.C".toList = true
      ∧ (Glob.new "text/x-c++src".toList "*.C".toList 50 false).compare
          "foo.c".toList = true) := by
  decide

/-- C5 amended: the case-sensitive entry `*.C` matches `foo.C` and not
`foo.c`; the case-insensitive entry from the same pattern matches
`foo.C` but still not `foo.c`, because the insensitive path lowercases
only the file name, never the stored suffix text. -/
theorem suffix_case_sensitivity_amended :
    (Glob.new "text/x-c++src".toList "*.C".toList 50 true).compare
        "foo.C".toList = true
    ∧ (Glob.new "text/x-c++src".toList "*.C".toList 50 true).compare
        "foo.c".toList = false
    ∧ (Glob.new "text/x-c++src".toList "*.C".toList 50 false).compare
        "foo.C".toList = true
    ∧ (Glob.new "text/x-c++src".toList "*.C".toList 50 false).compare
        "foo.c".toList = false := by
  decide

/-- C6: the match predicate of a Literal entry is case-insensitive
equality with the literal text, regardless of the `case_sensitive`
flag; in particular the entry for `copying` matches `COPYING` whether
constructed case-sensitive or case-insensitive. -/
theorem literal_compare_always_case_insensitive :
    (∀ (sl : List Char) (w : Int) (cs : Bool) (t fn : List Char),
      Glob.compare ⟨GlobType.Literal sl, w, cs, t⟩ fn = caseInsensitiveEq sl fn)
    ∧ (Glob.new "text/x-copying".toList "copying".toList 50 true).compare
        "COPYING".toList = true
    ∧ (Glob.new "text/x-copying".toList "copying".toList 50 false).compare
        "COPYING".toList = true := by
  refine ⟨?_, by decide, by decide⟩
  intro sl w cs t fn
  rfl

/-- C8: for a pattern text that classifies as Full, the match
predicate is independent of the `case_sensitive` flag: the Full branch
of `compare` forwards to the glob engine without consulting it. -/
theorem full_compare_independent_of_case_flag (src t : List Char) (w : Int)
    (b1 b2 : Bool) (fn : List Char)
    (h : ∃ p, determine_type src = GlobType.Full p) :
    (Glob.new t src w b1).compare fn = (Glob.new t src w b2).compare fn := by
  obtain ⟨p, hp⟩ := h
  show Glob.compare ⟨determine_type src, w, b1, t⟩ fn
    = Glob.compare ⟨determine_type src, w, b2, t⟩ fn
  rw [hp]
  rfl

/-- C8 witness: `x*.[ch]` classifies as Full and its two entries
differing only in the flag agree on `xa.c`. -/
theorem full_compare_independent_of_case_flag_witness :
    (∃ p, determine_type "x*.[ch]".toList = GlobType.Full p)
    ∧ (Glob.new "text/x-c".toList "x*.[ch]".toList 50 true).compare
        "xa.c".toList
      = (Glob.new "text/x-c".toList "x*.[ch]".toList 50 false).compare
        "xa.c".toList := by
  refine ⟨⟨Pattern.new "x*.[ch]".toList, by decide⟩, ?_⟩
  exact full_compare_independent_of_case_flag "x*.[ch]".toList
    "text/x-c".toList 50 true false "xa.c".toList
    ⟨Pattern.new "x*.[ch]".toList, by decide⟩

/-- C7: lookup returns `none`, never a present empty list, exactly
when no entry matches; a returned list has one target type per
matching entry, duplicates preserved. -/
theorem lookup_none_iff_no_match (m : GlobMap) (fn : List Char) :
    (m.lookup_mime_type_for_file_name fn = none ↔
      ∀ g ∈ m.globs, g.compare fn = false)
    ∧ ∀ l, m.lookup_mime_type_for_file_name fn = some l →
        l ≠ [] ∧ l.Perm ((m.globs.filter fun g => g.compare fn).map
          Glob.mime_type) := by
  constructor
  · simp only [GlobMap.lookup_mime_type_for_file_name]
    by_cases hl : (m.globs.filter fun g => g.compare fn).length = 0
    · rw [if_pos hl]
      rw [List.length_eq_zero, List.filter_eq_nil_iff] at hl
      simp only [true_iff]
      intro g hg
      have hng := hl g hg
      cases h : g.compare fn
      · rfl
      · exact absurd h hng
    · rw [if_neg hl]
      constructor
      · intro h
        cases h
      · intro hall
        exfalso
        apply hl
        rw [List.length_eq_zero, List.filter_eq_nil_iff]
        intro g hg
        rw [hall g hg]
        simp
  · intro l hlk
    simp only [GlobMap.lookup_mime_type_for_file_name] at hlk
    by_cases hl : (m.globs.filter fun g => g.compare fn).length = 0
    · rw [if_pos hl] at hlk
      cases hlk
    · rw [if_neg hl] at hlk
      obtain rfl := (Option.some_injective _ hlk).symm
      constructor
      · intro hemp
        apply hl
        have hperm :=
          (sortByWeight_perm (m.globs.filter fun g => g.compare fn)).length_eq
        have hzero : ((sortByWeight (m.globs.filter fun g =>
            g.compare fn)).map Glob.mime_type).length = 0 := by
          rw [hemp]
          rfl
        rw [List.length_map] at hzero
        omega
      · exact (sortByWeight_perm _).map Glob.mime_type

/-- C7 witness: on the two-entry registry both `*.x` entries match
`foo.x`, the result is present, non-empty, and a permutation of the
matched entries' types. -/
theorem lookup_none_iff_no_match_witness :
    ["low".toList, "high".toList] ≠ []
    ∧ (["low".toList, "high".toList]).Perm
        ((exMapWeights.globs.filter fun g =>
          g.compare "foo.x".toList).map Glob.mime_type) :=
  (lookup_none_iff_no_match exMapWeights "foo.x".toList).2
    ["low".toList, "high".toList] (by decide)

/-- C1 counterexample: on a registry holding a weight-80 and a
weight-50 entry that both match `foo.x`, lookup returns the weight-50
type first; the sequence of producing entries is not ordered by
descending weight. -/
theorem lookup_descending_weight_counterexample :
    exMapWeights.lookup_mime_type_for_file_name "foo.x".toList
      = some ["low".toList, "high".toList]
    ∧ sortByWeight (exMapWeights.globs.filter fun g =>
        g.compare "foo.x".toList) = [exGlobLow, exGlobHigh]
    ∧ exGlobLow.weight = 50 ∧ exGlobHigh.weight = 80
    ∧ ¬ (sortByWeight (exMapWeights.globs.filter fun g =>
          g.compare "foo.x".toList)).Pairwise
        (fun a b => a.weight ≥ b.weight) := by
  refine ⟨by decide, by decide, by decide, by decide, ?_⟩
  decide

/-- C1 amended: whenever lookup returns a list, it is the projection
of a weight-sorted list of the matching entries, ordered by
**ascending** weight (positions `i < j` have
`weight(i) ≤ weight(j)`; the lowest-priority match comes first). -/
theorem lookup_returns_ascending_weight_order (m : GlobMap) (fn : List Char)
    (l : List (List Char))
    (h : m.lookup_mime_type_for_file_name fn = some l) :
    ∃ gs : List Glob, l = gs.map Glob.mime_type ∧
      gs.Pairwise (fun a b => a.weight ≤ b.weight) ∧
      gs.Perm (m.globs.filter fun g => g.compare fn) := by
  refine ⟨sortByWeight (m.globs.filter fun g => g.compare fn), ?_,
    sorted_sortByWeight _, sortByWeight_perm _⟩
  simp only [GlobMap.lookup_mime_type_for_file_name] at h
  by_cases hl : (m.globs.filter fun g => g.compare fn).length = 0
  · rw [if_pos hl] at h
    cases h
  · rw [if_neg hl] at h
    exact (Option.some_injective _ h).symm

/-- C1 witness: the ascending-order description applied to the
concrete two-entry registry. -/
theorem lookup_returns_ascending_weight_order_witness :
    ∃ gs : List Glob, ["low".toList, "high".toList] = gs.map Glob.mime_type ∧
      gs.Pairwise (fun a b => a.weight ≤ b.weight) ∧
      gs.Perm (exMapWeights.globs.filter fun g => g.compare "foo.x".toList) :=
  lookup_returns_ascending_weight_order exMapWeights "foo.x".toList
    ["low".toList, "high".toList] (by decide)

/-- C9 counterexample: `Glob::new` (from_parts) performs no
validation: the entry built from an empty type and an empty pattern is
successfully constructed yet has empty target type and empty pattern
text. -/
theorem constructor_nonempty_counterexample :
    ¬ ((Glob.new ([] : List Char) [] 50 false).mime_type ≠ []
      ∧ patternSource (Glob.new ([] : List Char) [] 50 false).glob ≠ []) := by
  decide

/-- C9 amended: entries produced by the v1 or v2 line parsers always
have a non-empty target type and non-empty underlying pattern text;
the direct constructors do not validate. -/
theorem parser_entries_nonempty (s : List Char) (g : Glob)
    (h : Glob.from_v1_string s = some g ∨ Glob.from_v2_string s = some g) :
    g.mime_type ≠ [] ∧ patternSource g.glob ≠ [] := by
  rcases h with h | h
  · rcases hsp : splitOnColon s with _ | ⟨t, _ | ⟨p, _ | ⟨r, rs⟩⟩⟩
    · exact absurd hsp (splitOnColon_ne_nil s)
    · rw [from_v1_one hsp] at h
      cases h
    · rw [from_v1_two hsp] at h
      by_cases htp : t = [] ∨ p = []
      · rw [if_pos htp] at h
        cases h
      · rw [if_neg htp] at h
        obtain ⟨ht, hp⟩ := not_or.mp htp
        obtain rfl := (Option.some_injective _ h).symm
        refine ⟨ht, ?_⟩
        show patternSource (determine_type p) ≠ []
        rw [patternSource_determine_type]
        exact hp
    · rw [from_v1_many hsp] at h
      cases h
  · rcases hsp : splitOnColon s with _ | ⟨w, _ | ⟨t, _ | ⟨p, _ | ⟨c, _ | ⟨d, rs⟩⟩⟩⟩⟩
    · exact absurd hsp (splitOnColon_ne_nil s)
    · rw [from_v2_one hsp] at h
      cases h
    · rw [from_v2_two hsp] at h
      cases h
    · rw [from_v2_three hsp] at h
      by_cases hc : (parse_i32 w).getD (-1) < 0 ∨ t = [] ∨ p = []
      · rw [if_pos hc] at h
        cases h
      · rw [if_neg hc] at h
        obtain ⟨-, hrest⟩ := not_or.mp hc
        obtain ⟨ht, hp⟩ := not_or.mp hrest
        obtain rfl := (Option.some_injective _ h).symm
        refine ⟨ht, ?_⟩
        show patternSource (determine_type p) ≠ []
        rw [patternSource_determine_type]
        exact hp
    · rw [from_v2_four hsp] at h
      by_cases hc : (parse_i32 w).getD (-1) < 0 ∨ t = [] ∨ p = [] ∨
          c ≠ [ 'c', 's']
      · rw [if_pos hc] at h
        cases h
      · rw [if_neg hc] at h
        obtain ⟨-, hrest⟩ := not_or.mp hc
        obtain ⟨ht, hrest2⟩ := not_or.mp hrest
        obtain ⟨hp, -⟩ := not_or.mp hrest2
        obtain rfl := (Option.some_injective _ h).symm
        refine ⟨ht, ?_⟩
        show patternSource (determine_type p) ≠ []
        rw [patternSource_determine_type]
        exact hp
    · rw [from_v2_many hsp] at h
      cases h

/-- C9 witness: the entry parsed from the v2 line
`50:text/x-c++src:*.C:cs` has non-empty type and pattern text. -/
theorem parser_entries_nonempty_witness :
    exV2Glob.mime_type ≠ [] ∧ patternSource exV2Glob.glob ≠ [] :=
  parser_entries_nonempty exV2Line exV2Glob (Or.inr (by decide))

/-- C10: in the case-insensitive Simple (Suffix) path only the file
name is lowercased, never the stored suffix; hence a case-insensitive
Suffix entry whose suffix contains an uppercase letter matches a file
name only if the name literally ends with the stored suffix. -/
theorem suffix_insensitive_only_lowercases_file_name (g : Glob)
    (sl fn : List Char)
    (hglob : g.glob = GlobType.Simple sl)
    (hcs : g.case_sensitive = false)
    (hupper : ∃ c ∈ sl, c.isUpper = true)
    (hmatch : g.compare fn = true) :
    sl.isSuffixOf fn = true := by
  by_cases hsuf : sl.isSuffixOf fn = true
  · exact hsuf
  · exfalso
    rw [Glob.compare, hglob] at hmatch
    have hmatch2 : (if sl.isSuffixOf fn = true then true
        else if (!g.case_sensitive && sl.isSuffixOf (toLowercase fn)) = true
        then true else false) = true := hmatch
    rw [if_neg hsuf, hcs] at hmatch2
    have h2 : sl.isSuffixOf (toLowercase fn) = true := by
      by_cases h : sl.isSuffixOf (toLowercase fn) = true
      · exact h
      · rw [if_neg (by simp [h])] at hmatch2
        cases hmatch2
    obtain ⟨c, hc, hcu⟩ := hupper
    have hsub : sl <:+ toLowercase fn := by
      rw [← List.isSuffixOf_iff_suffix]
      exact h2
    have hmem : c ∈ toLowercase fn := hsub.subset hc
    have hnu := mem_toLowercase_not_upper hmem
    rw [hcu] at hnu
    cases hnu

/-- C10 witness: the case-insensitive `*.C` entry applied to `foo.C`;
a match forces the literal suffix. -/
theorem suffix_insensitive_only_lowercases_file_name_witness :
    (".C".toList).isSuffixOf "foo.C".toList = true :=
  suffix_insensitive_only_lowercases_file_name
    (Glob.new "text/x-c++src".toList "*.C".toList 50 false)
    ".C".toList "foo.C".toList (by decide) rfl ⟨'C', by decide, by decide⟩
    (by decide)

end XdgMime
